import Mathlib

/-!
# Verification of the recitation-grading core of `ai.py`

This file shallowly embeds the text-comparison core of the Quran-app
backend (`src/ai.py`): the two Arabic normalizers, the letter/diacritic
extractor `get_letters_and_harakat`, the row-based `levenshtein_distance`,
the similarity scorer `check_word_match`, the Basmala/Surah-header prefix
stripping, and the greedy forward aligner of `transcribe_and_compare_audio`
(its pure text part, with the ASR transcript taken as an input string).

Strings are embedded as `List Char`.  The Unicode-table primitives the
Python code consults through `unicodedata` (general categories, NFD/NFKC)
are modelled as total functions that agree with the real tables on the
Arabic repertoire this program processes: `isL`/`isMn` are defined by the
code-point ranges of the Arabic blocks (plus ASCII letters), `nfdChar`
canonically decomposes the hamza-seated alif forms (the only decomposable
characters in this repertoire), and NFKC is the identity on it (standard
Arabic letters and marks are NFKC-invariant).  Python `re` operations on
whitespace are modelled through `isSpace`, which is Python's `\s` class
for `str` (plus U+00A0, which the code adds redundantly in its character
classes).

Rational numbers stand for the Python floats; every threshold comparison
proved here is exact in both representations.
-/

namespace QuranGrading

/-- Python's `\s` whitespace class for `str` (with U+00A0, also explicitly
added by the code's regexes `[\s ]+`).  Used by `re.split`, `re.sub`
and `str.strip` models alike. -/
def isSpace (c : Char) : Bool :=
  decide (c.toNat ∈ ([0x20, 0x09, 0x0A, 0x0B, 0x0C, 0x0D, 0x1C, 0x1D, 0x1E, 0x1F,
      0x85, 0xA0, 0x1680, 0x2028, 0x2029, 0x202F, 0x205F, 0x3000] : List Nat))
  || decide (0x2000 ≤ c.toNat ∧ c.toNat ≤ 0x200A)

/-- `[token for token in re.split(r'[\s ]+', s) if token]`: the maximal
whitespace-free runs of `s`, in order. -/
def splitWs (s : List Char) : List (List Char) :=
  (s.splitOnP isSpace).filter (· ≠ [])

/-- `" ".join ws`. -/
def joinSp (ws : List (List Char)) : List Char := List.intercalate [' '] ws

/-- `re.sub(r'\s+', ' ', s).strip()`: each maximal whitespace run becomes one
space and the leading/trailing run disappears, i.e. the single-space join of
the whitespace-free runs. -/
def collapseWs (s : List Char) : List Char := joinSp (splitWs s)

/-- `s.strip()`. -/
def stripWs (s : List Char) : List Char :=
  ((s.dropWhile fun c => isSpace c).reverse.dropWhile fun c => isSpace c).reverse

/-- U+0654 ARABIC HAMZA ABOVE (combining). -/
def HAMZA_ABOVE : Char := 'ٔ'
/-- U+0655 ARABIC HAMZA BELOW (combining). -/
def HAMZA_BELOW : Char := 'ٕ'
/-- U+0653 ARABIC MADDAH ABOVE (combining). -/
def MADDA_ABOVE : Char := 'ٓ'

/-- Canonical (NFD) decomposition of one character.  On the Arabic repertoire
the only characters with a canonical decomposition are the hamza/madda-seated
alif, waw and ya forms; every other character is NFD-invariant. -/
def nfdChar (c : Char) : List Char :=
  if c = 'أ' then ['ا', HAMZA_ABOVE]
  else if c = 'إ' then ['ا', HAMZA_BELOW]
  else if c = 'آ' then ['ا', MADDA_ABOVE]
  else if c = 'ؤ' then ['و', HAMZA_ABOVE]
  else if c = 'ئ' then ['ي', HAMZA_ABOVE]
  else [c]

/-- `unicodedata.normalize('NFD', s)`. -/
def nfdStr (s : List Char) : List Char := (s.map nfdChar).flatten

/-- `unicodedata.normalize('NFKC', s)`: the identity on the Arabic repertoire
(standard Arabic letters, harakat and spaces are NFKC-invariant). -/
def nfkcStr (s : List Char) : List Char := s

/-- `unicodedata.category(c) == 'Mn'` (nonspacing combining marks), by the
Arabic-block ranges: honorific/Quranic marks U+0610–U+061A, tashkeel and
combining hamza/madda U+064B–U+065F, superscript alef U+0670, the Quranic
annotation marks U+06D6–U+06DC, U+06DF–U+06E4, U+06E7–U+06E8, U+06EA–U+06ED
and Arabic Extended-A U+08D3–U+08FF. -/
def isMn (c : Char) : Bool :=
  decide ((0x610 ≤ c.toNat ∧ c.toNat ≤ 0x61A) ∨ (0x64B ≤ c.toNat ∧ c.toNat ≤ 0x65F) ∨
    c.toNat = 0x670 ∨ (0x6D6 ≤ c.toNat ∧ c.toNat ≤ 0x6DC) ∨
    (0x6DF ≤ c.toNat ∧ c.toNat ≤ 0x6E4) ∨ c.toNat = 0x6E7 ∨ c.toNat = 0x6E8 ∨
    (0x6EA ≤ c.toNat ∧ c.toNat ≤ 0x6ED) ∨ (0x8D3 ≤ c.toNat ∧ c.toNat ≤ 0x8FF))

/-- `unicodedata.category(c).startswith('L')` (letters), by ranges: ASCII
letters, Arabic letters U+0620–U+064A (including tatweel U+0640, category Lm),
U+066E–U+066F, U+0671–U+06D3 (alef wasla through the extended letters),
U+06D5, the small high seen letters U+06E5–U+06E6, U+06EE–U+06EF and
U+06FA–U+06FF. -/
def isL (c : Char) : Bool :=
  decide ((0x41 ≤ c.toNat ∧ c.toNat ≤ 0x5A) ∨ (0x61 ≤ c.toNat ∧ c.toNat ≤ 0x7A) ∨
    (0x620 ≤ c.toNat ∧ c.toNat ≤ 0x64A) ∨ (0x66E ≤ c.toNat ∧ c.toNat ≤ 0x66F) ∨
    (0x671 ≤ c.toNat ∧ c.toNat ≤ 0x6D3) ∨ c.toNat = 0x6D5 ∨
    (0x6E5 ≤ c.toNat ∧ c.toNat ≤ 0x6E6) ∨ (0x6EE ≤ c.toNat ∧ c.toNat ≤ 0x6EF) ∨
    (0x6FA ≤ c.toNat ∧ c.toNat ≤ 0x6FF))

/-- The letter-variant merges applied by `normalize_text_for_detection`:
`'أ'→'ا'`, `'إ'→'ا'`, `'آ'→'ا'`, `'ٱ'→'ا'`, then `'ة'→'ه'`, then `'ى'→'ي'`
(single-character `str.replace` chains compose to one character map; no
replacement output is itself replaced). -/
def replDetect (c : Char) : Char :=
  if c = 'أ' ∨ c = 'إ' ∨ c = 'آ' ∨ c = 'ٱ' then 'ا'
  else if c = 'ة' then 'ه'
  else if c = 'ى' then 'ي'
  else c

/-- `normalize_text_for_detection`: NFD, drop all `Mn` marks, merge letter
variants, standardize whitespace runs to single spaces and strip. -/
def normalize_text_for_detection (s : List Char) : List Char :=
  if s = [] then []
  else collapseWs (((nfdStr s).filter fun c => !(isMn c)).map replDetect)

/-- `BASMALA_EXACT_TEXT`. -/
def BASMALA_EXACT_TEXT : List Char := "بسم الله الرحمن الرحيم".data

/-- `SURAH_WORD_AR_RAW`. -/
def SURAH_WORD_AR_RAW : List Char := "سورة".data

/-- `BASMALA_NORMALIZED_FOR_DETECTION`. -/
def BASMALA_NORMALIZED_FOR_DETECTION : List Char :=
  normalize_text_for_detection BASMALA_EXACT_TEXT

/-- `BASMALA_TOKENS_NORMALIZED_FOR_DETECTION`: the code splits the normalized
constant on `' '` and drops empty tokens; since the normalized string is
single-space separated this is its whitespace tokenization. -/
def BASMALA_TOKENS_NORMALIZED_FOR_DETECTION : List (List Char) :=
  splitWs BASMALA_NORMALIZED_FOR_DETECTION

/-- `SURAH_WORD_NORMALIZED_FOR_DETECTION`. -/
def SURAH_WORD_NORMALIZED_FOR_DETECTION : List Char :=
  normalize_text_for_detection SURAH_WORD_AR_RAW

/-- The character class of the code's first content regex
`[؀-؅ؐ-ؚۖ-ࣰۭ-ࣿ]` (Quranic annotation
signs, sajda marks, verse-end marker U+06DD, etc.). -/
def inAnnotationRanges (c : Char) : Bool :=
  decide ((0x600 ≤ c.toNat ∧ c.toNat ≤ 0x605) ∨ (0x610 ≤ c.toNat ∧ c.toNat ≤ 0x61A) ∨
    (0x6D6 ≤ c.toNat ∧ c.toNat ≤ 0x6ED) ∨ (0x8F0 ≤ c.toNat ∧ c.toNat ≤ 0x8FF))

/-- Western and Arabic-Indic digits `[0-9٠-٩]`. -/
def isDigitChar (c : Char) : Bool :=
  decide ((0x30 ≤ c.toNat ∧ c.toNat ≤ 0x39) ∨ (0x660 ≤ c.toNat ∧ c.toNat ≤ 0x669))

/-- `normalize_arabic_text_for_comparison_content`.  The four `re.sub` calls
reduce to two filters: the first removes every character of
`inAnnotationRanges`; the second sub (`۝\s*[٠-٩0-9]*\s*`) can never
fire because its anchor U+06DD lies in U+06D6–U+06ED and was already removed;
the third (`\b[0-9٠-٩]+\b`) and fourth (`[0-9٠-٩]+`)
together delete exactly every digit character.  Then dagger alif U+0670 is
replaced by plain alif, and whitespace is collapsed and stripped. -/
def normalize_arabic_text_for_comparison_content (s : List Char) : List Char :=
  if s = [] then []
  else
    collapseWs (((s.filter fun c => !(inAnnotationRanges c)).filter
      fun c => !(isDigitChar c)).map fun c => if c = 'ٰ' then 'ا' else c)

/-- U+064E ARABIC FATHA. -/
def FATHA : Char := 'َ'
/-- U+064F ARABIC DAMMA. -/
def DAMMA : Char := 'ُ'
/-- U+0650 ARABIC KASRA. -/
def KASRA : Char := 'ِ'

/-- The phonetic-merge substitutions of `get_letters_and_harakat` when
`apply_phonetic_normalization` is set: `'ٱ'→'ا'`, `'أ'→'ا'`, `'إ'→'ا'`,
`'آ'→'ا'`, `'ص'→'س'`, `'ى'→'ي'`, `'ة'→'ه'` (sequential single-character
replaces, composing to one map). -/
def phonRepl (c : Char) : Char :=
  if c = 'ٱ' ∨ c = 'أ' ∨ c = 'إ' ∨ c = 'آ' then 'ا'
  else if c = 'ص' then 'س'
  else if c = 'ى' then 'ي'
  else if c = 'ة' then 'ه'
  else c

/-- The `letter_only_string` of `get_letters_and_harakat`: letters of the
NFD of the NFKC of the word, with phonetic merges if requested. -/
def lettersOf (w : List Char) (phonetic : Bool) : List Char :=
  let base := (nfdStr (nfkcStr w)).filter isL
  if phonetic then base.map phonRepl else base

/-- The harakat-collecting walk of `get_letters_and_harakat`: `k` counts the
letters seen so far (the code's `current_letter_idx` is `k - 1`, and is `-1`,
i.e. "record nothing", while `k = 0`). -/
def harakatAux : List Char → Nat → List (Nat × Char)
  | [], _ => []
  | c :: cs, k =>
    if isL c then harakatAux cs (k + 1)
    else if (c = FATHA ∨ c = DAMMA ∨ c = KASRA) ∧ k ≠ 0 then
      (k - 1, c) :: harakatAux cs k
    else harakatAux cs k

/-- The `harakat_tuples` of `get_letters_and_harakat` (computed on the NFD of
the original word, independent of the phonetic flag). -/
def harakatOf (w : List Char) : List (Nat × Char) := harakatAux (nfdStr w) 0

/-- `get_letters_and_harakat`. -/
def get_letters_and_harakat (w : List Char) (phonetic : Bool) :
    List Char × List (Nat × Char) :=
  (lettersOf w phonetic, harakatOf w)

/-- Inner column loop of `levenshtein_distance`: `pj :: prest` is the tail of
`previous_row` from the current column, `curj` the last value appended to
`current_row`.  `min` is taken in the code's order
`min(insertions, deletions, substitutions)`. -/
def levGo (c1 : Char) : List Char → List Nat → Nat → List Nat
  | [], _, _ => []
  | _ :: _, [], _ => []
  | c2 :: cs, pj :: prest, curj =>
    let ins := prest.headD 0 + 1
    let del := curj + 1
    let sub := pj + (if c1 = c2 then 0 else 1)
    let v := min ins (min del sub)
    v :: levGo c1 cs prest v

/-- Row loop of `levenshtein_distance`: row `i` starts with `i + 1` and is
completed by `levGo`; the final `previous_row` is returned. -/
def levRows (s2 : List Char) : List Char → Nat → List Nat → List Nat
  | [], _, prev => prev
  | c1 :: cs, i, prev => levRows s2 cs (i + 1) ((i + 1) :: levGo c1 s2 prev (i + 1))

/-- Body of `levenshtein_distance` after the one possible argument swap
(`previous_row = range(len(s2)+1)`, then the row loop, then
`previous_row[-1]`). -/
def levPost (s1 s2 : List Char) : Nat :=
  if s2.length = 0 then s1.length
  else (levRows s2 s1 0 (List.range (s2.length + 1))).getLastD 0

/-- `levenshtein_distance` (the code swaps once so that `len(s1) ≥ len(s2)`). -/
def levenshtein_distance (s1 s2 : List Char) : Nat :=
  if s1.length < s2.length then levPost s2 s1 else levPost s1 s2

/-- The `letter_sim` expression of `check_word_match` (including its
`max_len == 0` guard). -/
def letter_sim (aL uL : List Char) : ℚ :=
  let dist := levenshtein_distance aL uL
  let maxLen := max aL.length uL.length
  if 0 < maxLen then ((maxLen : ℚ) - (dist : ℚ)) / (maxLen : ℚ)
  else if dist = 0 then 1 else 0

/-- The `tashkeel_sim` computation of `check_word_match`: `1.0` when the ayah
word recorded no harakat, otherwise the number of ayah `(index, mark)` pairs
found in the user's harakat (set membership = list membership), divided by the
number of ayah pairs. -/
def tashkeel_sim (aH uH : List (Nat × Char)) : ℚ :=
  if aH = [] then 1
  else ((aH.countP fun h => decide (h ∈ uH)) : ℚ) / (aH.length : ℚ)

/-- `check_word_match`. -/
def check_word_match (a u : List Char) (lt tt : ℚ) : Bool :=
  let aP := get_letters_and_harakat a true
  let uP := get_letters_and_harakat u true
  if aP.1 = [] ∧ uP.1 = [] then true
  else if aP.1 = [] ∨ uP.1 = [] then false
  else if letter_sim aP.1 uP.1 < lt then false
  else decide (tashkeel_sim aP.2 uP.2 ≥ tt)

/-- One entry of `ayah_words_for_comparison_info_list` (the dict built at
lines 272–279 of `ai.py`). -/
structure AyahInfo where
  original_form : List Char
  normalized_form_for_content_comparison : List Char
  original_position_in_processed_ayah : Nat
deriving DecidableEq, Repr

/-- `_strip_prefix_from_raw_text`. -/
def strip_prefix_from_raw_text (raw_text : List Char)
    (pTokensNormalized : List (List Char)) (numExpected : Nat) : List Char :=
  if raw_text = [] ∨ pTokensNormalized = [] then raw_text
  else
    let raw_text_tokens := splitWs raw_text
    if raw_text_tokens.length < numExpected then raw_text
    else if (raw_text_tokens.take numExpected).map normalize_text_for_detection =
        pTokensNormalized then
      stripWs (joinSp (raw_text_tokens.drop numExpected))
    else raw_text

/-- Step 1 of `transcribe_and_compare_audio` (lines 219–237): Surah-header
removal from the ayah text.  The header is `"سورة"` plus one following word,
or two when the second raw token normalizes to `"ال"`. -/
def processed_ayah_after_header (ayah : List Char) : List Char :=
  let toks := splitWs ayah
  if toks = [] then ayah
  else if normalize_text_for_detection (toks.headD []) =
      SURAH_WORD_NORMALIZED_FOR_DETECTION then
    let num : Nat :=
      if 1 < toks.length then
        if 2 < toks.length ∧
            normalize_text_for_detection (toks.getD 1 []) =
              normalize_text_for_detection "ال".data then 3
        else 2
      else 1
    if num ≤ toks.length then stripWs (joinSp (toks.drop num)) else []
  else ayah

/-- Step 2 (lines 239–245): the Al-Fatiha case flag — the header-stripped ayah
text, detection-normalized, equals the detection-normalized Basmala. -/
def is_al_fatiha_basmala_case (ayah : List Char) : Bool :=
  decide (normalize_text_for_detection (processed_ayah_after_header ayah) =
    BASMALA_NORMALIZED_FOR_DETECTION)

/-- Step 3 for the ayah side (lines 248–258): Basmala stripping unless the
Al-Fatiha flag is set. -/
def processed_ayah_final (ayah : List Char) : List Char :=
  let h := processed_ayah_after_header ayah
  if is_al_fatiha_basmala_case ayah then h
  else strip_prefix_from_raw_text h BASMALA_TOKENS_NORMALIZED_FOR_DETECTION
    BASMALA_TOKENS_NORMALIZED_FOR_DETECTION.length

/-- Step 3 for the transcription side (lines 260–266). -/
def processed_transcription_final (ayah trans : List Char) : List Char :=
  if is_al_fatiha_basmala_case ayah then trans
  else strip_prefix_from_raw_text trans BASMALA_TOKENS_NORMALIZED_FOR_DETECTION
    BASMALA_TOKENS_NORMALIZED_FOR_DETECTION.length

/-- Step 4 for the ayah side (lines 269–279): enumerate the raw tokens
(`idx` counts every raw token) and keep those with non-empty content
normalization. -/
def buildInfos : List (List Char) → Nat → List AyahInfo
  | [], _ => []
  | t :: ts, idx =>
    let n := normalize_arabic_text_for_comparison_content t
    if n = [] then buildInfos ts (idx + 1)
    else ⟨t, n, idx⟩ :: buildInfos ts (idx + 1)

/-- `ayah_words_for_comparison_info_list` as a function of the raw ayah
input. -/
def ayah_words_info (ayah : List Char) : List AyahInfo :=
  buildInfos (splitWs (processed_ayah_final ayah)) 0

/-- `transcribed_tokens_for_comparison_normalized` (lines 281–284). -/
def transcribed_tokens_normalized (trans : List Char) : List (List Char) :=
  (splitWs trans).filterMap fun w =>
    let n := normalize_arabic_text_for_comparison_content w
    if n = [] then none else some n

/-- The inner `while temp_user_idx_search < len(...)` scan (lines 299–315,
search part), walking the suffix `toks.drop i` while carrying the absolute
index `i`; thresholds are the code's defaults `0.85` and `0.7`. -/
def findMatchFromAux (aw : List Char) : List (List Char) → Nat → Option Nat
  | [], _ => none
  | t :: ts, i =>
    if check_word_match aw t (0.85 : ℚ) (0.7 : ℚ) then some i
    else findMatchFromAux aw ts (i + 1)

/-- Search for the first transcript token at index `≥ i` matching `aw`. -/
def findMatchFrom (aw : List Char) (toks : List (List Char)) (i : Nat) : Option Nat :=
  findMatchFromAux aw (toks.drop i) i

/-- The duplicate-absorption `while` loop (lines 307–313), walking the suffix
`toks.drop i`: advance while the token's phonetic letters equal the matched
token's letters `L`. -/
def absorbAux (L : List Char) : List (List Char) → Nat → Nat
  | [], i => i
  | t :: ts, i => if lettersOf t true = L then absorbAux L ts (i + 1) else i

/-- Cursor position after duplicate absorption starting at index `i`. -/
def absorbFrom (L : List Char) (toks : List (List Char)) (i : Nat) : Nat :=
  absorbAux L (toks.drop i) i

/-- One reference word's effect on the aligner state: the matched transcript
position (if any) and the new cursor.  On a miss the cursor is returned
unchanged; on a hit at `p` the cursor becomes `p + 1` advanced by duplicate
absorption against the letters of the matched transcript token. -/
def alignStep (awNorm : List Char) (toks : List (List Char)) (c : Nat) :
    Option Nat × Nat :=
  match findMatchFrom awNorm toks c with
  | none => (none, c)
  | some p => (some p, absorbFrom (lettersOf (toks.getD p []) true) toks (p + 1))

/-- The comparison loop (lines 289–320), instrumented: returns
`incorrect_ayah_word_details` as `(word, position)` pairs, the list of matched
transcript positions in order, and the final cursor. -/
def alignAll (infos : List AyahInfo) (toks : List (List Char)) (c : Nat) :
    List (List Char × Nat) × List Nat × Nat :=
  match infos with
  | [] => ([], [], c)
  | info :: rest =>
    match findMatchFrom info.normalized_form_for_content_comparison toks c with
    | none =>
      let r := alignAll rest toks c
      ((info.original_form, info.original_position_in_processed_ayah) :: r.1,
        r.2.1, r.2.2)
    | some p =>
      let c2 := absorbFrom (lettersOf (toks.getD p []) true) toks (p + 1)
      let r := alignAll rest toks c2
      (r.1, p :: r.2.1, r.2.2)

/-- The full text-comparison pipeline of `transcribe_and_compare_audio`
applied to the raw ayah text and the raw transcript: the returned
`incorrect_ayah_words` as `(word, position)` pairs. -/
def grade_recitation (ayah trans : List Char) : List (List Char × Nat) :=
  (alignAll (ayah_words_info ayah)
    (transcribed_tokens_normalized (processed_transcription_final ayah trans)) 0).1

/-- A list of tokens as produced by whitespace splitting: each token is
nonempty and contains no whitespace character. -/
def GoodWords (ws : List (List Char)) : Prop :=
  ∀ t ∈ ws, t ≠ [] ∧ ∀ c ∈ t, isSpace c = false

/-- No two consecutive tokens of `toks` have the same phonetic-mode letters
string (the situation in which duplicate absorption never fires). -/
def AdjacentDistinct (toks : List (List Char)) : Prop :=
  List.Chain' (fun a b => lettersOf a true ≠ lettersOf b true) toks

/-- `|i - j|` on naturals. -/
def natDist (i j : Nat) : Nat := (i - j) + (j - i)

/-! ## Whitespace splitting infrastructure -/

theorem mem_splitOnP_isSpace_false {s : List Char} :
    ∀ t ∈ s.splitOnP isSpace, ∀ c ∈ t, isSpace c = false := by
  induction s with
  | nil =>
    intro t ht c hc
    simp only [List.splitOnP_nil, List.mem_singleton] at ht
    subst ht; exact absurd hc (List.not_mem_nil c)
  | cons x xs ih =>
    intro t ht c hc
    rw [List.splitOnP_cons] at ht
    by_cases hx : isSpace x
    · rw [if_pos hx] at ht
      rcases List.mem_cons.1 ht with h | h
      · subst h; exact absurd hc (List.not_mem_nil c)
      · exact ih t h c hc
    · rw [if_neg hx] at ht
      rcases hxs : xs.splitOnP isSpace with _ | ⟨h0, rest⟩
      · exact absurd hxs (List.splitOnP_ne_nil _ _)
      · rw [hxs] at ht
        simp only [List.modifyHead] at ht
        rcases List.mem_cons.1 ht with h | h
        · subst h
          rcases List.mem_cons.1 hc with rfl | hc2
          · exact Bool.not_eq_true _ ▸ (by simpa using hx)
          · exact ih h0 (hxs ▸ List.mem_cons_self _ _) c hc2
        · exact ih t (hxs ▸ List.mem_cons.2 (Or.inr h)) c hc

theorem mem_splitOnP_subset {s : List Char} :
    ∀ t ∈ s.splitOnP isSpace, ∀ c ∈ t, c ∈ s := by
  induction s with
  | nil =>
    intro t ht c hc
    simp only [List.splitOnP_nil, List.mem_singleton] at ht
    subst ht; exact absurd hc (List.not_mem_nil c)
  | cons x xs ih =>
    intro t ht c hc
    rw [List.splitOnP_cons] at ht
    by_cases hx : isSpace x
    · rw [if_pos hx] at ht
      rcases List.mem_cons.1 ht with h | h
      · subst h; exact absurd hc (List.not_mem_nil c)
      · exact List.mem_cons.2 (Or.inr (ih t h c hc))
    · rw [if_neg hx] at ht
      rcases hxs : xs.splitOnP isSpace with _ | ⟨h0, rest⟩
      · exact absurd hxs (List.splitOnP_ne_nil _ _)
      · rw [hxs] at ht
        simp only [List.modifyHead] at ht
        rcases List.mem_cons.1 ht with h | h
        · subst h
          rcases List.mem_cons.1 hc with rfl | hc2
          · exact List.mem_cons_self _ _
          · exact List.mem_cons.2
              (Or.inr (ih h0 (hxs ▸ List.mem_cons_self _ _) c hc2))
        · exact List.mem_cons.2
            (Or.inr (ih t (hxs ▸ List.mem_cons.2 (Or.inr h)) c hc))

theorem goodWords_splitWs (s : List Char) : GoodWords (splitWs s) := by
  intro t ht
  have h1 := List.mem_filter.1 ht
  refine ⟨by simpa using h1.2, mem_splitOnP_isSpace_false t h1.1⟩

theorem mem_splitWs_subset {s t : List Char} (ht : t ∈ splitWs s) :
    ∀ c ∈ t, c ∈ s :=
  mem_splitOnP_subset t (List.mem_filter.1 ht).1

theorem splitWs_nil : splitWs [] = [] := rfl

theorem splitWs_eq_nil_of_all_space {s : List Char}
    (h : ∀ c ∈ s, isSpace c = true) : splitWs s = [] := by
  rw [List.eq_nil_iff_forall_not_mem]
  intro t ht
  rcases goodWords_splitWs s t ht with ⟨hne, hns⟩
  rcases t with _ | ⟨c, t'⟩
  · exact hne rfl
  · have hc : c ∈ s := mem_splitWs_subset ht c (List.mem_cons_self _ _)
    have := h c hc
    have := hns c (List.mem_cons_self _ _)
    simp_all

theorem goodWords_drop {ws : List (List Char)} (h : GoodWords ws) (n : Nat) :
    GoodWords (ws.drop n) := fun t ht => h t (List.drop_subset n ws ht)

theorem goodWords_take {ws : List (List Char)} (h : GoodWords ws) (n : Nat) :
    GoodWords (ws.take n) := fun t ht => h t (List.take_subset n ws ht)

theorem joinSp_cons_cons (t r : List Char) (rs : List (List Char)) :
    joinSp (t :: r :: rs) = t ++ ' ' :: joinSp (r :: rs) := by
  simp only [joinSp, List.intercalate, List.intersperse_cons_cons, List.flatten_cons]
  rfl

theorem splitWs_joinSp {ws : List (List Char)} (h : GoodWords ws) :
    splitWs (joinSp ws) = ws := by
  induction ws with
  | nil => rfl
  | cons t rest ih =>
    rcases h t (List.mem_cons_self _ _) with ⟨hne, hns⟩
    rcases rest with _ | ⟨r, rs⟩
    · have hj : joinSp [t] = t := by
        simp [joinSp, List.intercalate]
      have hsingle : t.splitOnP isSpace = [t] :=
        List.splitOnP_eq_single _ _ fun c hc => by simp [hns c hc]
      rw [hj]
      simp only [splitWs, hsingle, List.filter_cons, List.filter_nil]
      simp [hne]
    · have hfirst := List.splitOnP_first isSpace t
        (fun c hc => by simp [hns c hc]) ' ' (by decide) (joinSp (r :: rs))
      have ihh : splitWs (joinSp (r :: rs)) = r :: rs :=
        ih fun u hu => h u (List.mem_cons.2 (Or.inr hu))
      rw [joinSp_cons_cons]
      simp only [splitWs] at ihh ⊢
      rw [hfirst, List.filter_cons, ihh]
      simp [hne]

theorem stripWs_eq_self {s : List Char}
    (h1 : ∀ c, s.head? = some c → isSpace c = false)
    (h2 : ∀ c, s.getLast? = some c → isSpace c = false) : stripWs s = s := by
  rcases s with _ | ⟨a, l⟩
  · rfl
  · have ha : isSpace a = false := h1 a rfl
    have hd : List.dropWhile (fun c => isSpace c) (a :: l) = a :: l := by
      rw [List.dropWhile_cons]; simp [ha]
    simp only [stripWs, hd]
    rcases hr : (a :: l).reverse with _ | ⟨b, m⟩
    · exact absurd hr (by simp)
    · have hb : isSpace b = false := by
        apply h2
        rw [← List.head?_reverse, hr]; rfl
      have hdb : List.dropWhile (fun c => isSpace c) (b :: m) = b :: m := by
        rw [List.dropWhile_cons]; simp [hb]
      rw [hdb, ← hr, List.reverse_reverse]

theorem joinSp_getLast?_mem {ws : List (List Char)} (h : GoodWords ws)
    (hne : ws ≠ []) : ∃ u c, u ∈ ws ∧ c ∈ u ∧ (joinSp ws).getLast? = some c := by
  induction ws with
  | nil => exact absurd rfl hne
  | cons t rest ih =>
    rcases rest with _ | ⟨r, rs⟩
    · have hj : joinSp [t] = t := by simp [joinSp, List.intercalate]
      rcases h t (List.mem_cons_self _ _) with ⟨htne, -⟩
      refine ⟨t, t.getLast htne, List.mem_cons_self _ _, List.getLast_mem htne, ?_⟩
      rw [hj, List.getLast?_eq_getLast _ htne]
    · rcases ih (fun u hu => h u (List.mem_cons.2 (Or.inr hu))) (by simp)
        with ⟨u, c, hu, hc, hlast⟩
      refine ⟨u, c, List.mem_cons.2 (Or.inr hu), hc, ?_⟩
      rw [joinSp_cons_cons]
      rcases hj : joinSp (r :: rs) with _ | ⟨d, ds⟩
      · rw [hj] at hlast; exact absurd hlast (by simp)
      · rw [hj] at hlast
        have hstep : (t ++ ' ' :: d :: ds).getLast? = (d :: ds).getLast? := by
          rw [List.getLast?_append_of_ne_nil _ (by simp)]
          exact List.getLast?_cons_cons
        rw [hstep]
        exact hlast

theorem stripWs_joinSp {ws : List (List Char)} (h : GoodWords ws) :
    stripWs (joinSp ws) = joinSp ws := by
  rcases ws with _ | ⟨t, rest⟩
  · rfl
  · rcases h t (List.mem_cons_self _ _) with ⟨htne, hns⟩
    rcases ht : t with _ | ⟨a, t'⟩
    · exact absurd ht htne
    apply stripWs_eq_self
    · intro c hc
      have hh : (joinSp ((a :: t') :: rest)).head? = some a := by
        rcases rest with _ | ⟨r, rs⟩
        · simp [joinSp, List.intercalate]
        · rw [joinSp_cons_cons]; rfl
      rw [hh] at hc
      injection hc with hc'
      subst hc'
      have hat : a ∈ t := by rw [ht]; exact List.mem_cons_self _ _
      exact hns a hat
    · intro c hc
      have hgw : GoodWords ((a :: t') :: rest) := by rw [← ht]; exact h
      rcases joinSp_getLast?_mem hgw (by simp) with ⟨u, d, hu, hd, hlast⟩
      rw [hlast] at hc
      injection hc with hc'
      subst hc'
      exact (hgw u hu).2 d hd

theorem splitWs_stripWs_joinSp {ws : List (List Char)} (h : GoodWords ws) :
    splitWs (stripWs (joinSp ws)) = ws := by
  rw [stripWs_joinSp h, splitWs_joinSp h]

theorem mem_joinSp {ws : List (List Char)} {c : Char} (hc : c ∈ joinSp ws) :
    c = ' ' ∨ ∃ t ∈ ws, c ∈ t := by
  induction ws with
  | nil => exact absurd hc (List.not_mem_nil c)
  | cons t rest ih =>
    rcases rest with _ | ⟨r, rs⟩
    · have hj : joinSp [t] = t := by simp [joinSp, List.intercalate]
      rw [hj] at hc
      exact Or.inr ⟨t, List.mem_cons_self _ _, hc⟩
    · rw [joinSp_cons_cons] at hc
      rcases List.mem_append.1 hc with h | h
      · exact Or.inr ⟨t, List.mem_cons_self _ _, h⟩
      · rcases List.mem_cons.1 h with rfl | h2
        · exact Or.inl rfl
        · rcases ih h2 with h3 | ⟨u, hu, hcu⟩
          · exact Or.inl h3
          · exact Or.inr ⟨u, List.mem_cons.2 (Or.inr hu), hcu⟩

theorem map_id_on {α : Type} {f : α → α} {l : List α} (h : ∀ c ∈ l, f c = c) :
    l.map f = l := by
  induction l with
  | nil => rfl
  | cons a l ih =>
    rw [List.map_cons, h a (List.mem_cons_self _ _),
      ih fun c hc => h c (List.mem_cons.2 (Or.inr hc))]

/-! ## Idempotence of content normalization (C8 infrastructure) -/

theorem mem_content_normalized {s : List Char} :
    ∀ c ∈ normalize_arabic_text_for_comparison_content s,
      inAnnotationRanges c = false ∧ isDigitChar c = false ∧ c ≠ 'ٰ' := by
  intro c hc
  by_cases hs : s = []
  · subst hs
    simp [normalize_arabic_text_for_comparison_content] at hc
  · simp only [normalize_arabic_text_for_comparison_content, if_neg hs,
      collapseWs] at hc
    rcases mem_joinSp hc with rfl | ⟨t, ht, hct⟩
    · exact ⟨by decide, by decide, by decide⟩
    · have hcs3 := mem_splitWs_subset ht c hct
      rcases List.mem_map.1 hcs3 with ⟨d, hd, hdc⟩
      by_cases hdg : d = 'ٰ'
      · subst hdg
        rw [if_pos rfl] at hdc
        subst hdc
        exact ⟨by decide, by decide, by decide⟩
      · rw [if_neg hdg] at hdc
        subst hdc
        have h2 := List.mem_filter.1 hd
        have h1 := List.mem_filter.1 h2.1
        refine ⟨?_, ?_, hdg⟩
        · simpa using h1.2
        · simpa using h2.2

theorem content_normalize_eq_joinSp {s : List Char} (hs : s ≠ []) :
    normalize_arabic_text_for_comparison_content s =
      joinSp (splitWs (((s.filter fun c => !(inAnnotationRanges c)).filter
        fun c => !(isDigitChar c)).map fun c => if c = 'ٰ' then 'ا' else c)) := by
  simp only [normalize_arabic_text_for_comparison_content, if_neg hs, collapseWs]

/-- **C8.**  Content normalization is idempotent: for every Unicode string
`x`, `normalize_arabic_text_for_comparison_content` applied twice gives the
same result as applied once.  (Every character surviving one pass is outside
the removed annotation ranges, is not a digit, and is not a dagger alif, and
the surviving whitespace is already collapsed, so a second pass changes
nothing.) -/
theorem claim8_content_normalization_idempotent (s : List Char) :
    normalize_arabic_text_for_comparison_content
        (normalize_arabic_text_for_comparison_content s) =
      normalize_arabic_text_for_comparison_content s := by
  by_cases hs : s = []
  · subst hs; rfl
  · by_cases hr0 : normalize_arabic_text_for_comparison_content s = []
    · rw [hr0]; simp [normalize_arabic_text_for_comparison_content]
    · have hchar := @mem_content_normalized s
      rw [content_normalize_eq_joinSp hr0]
      have e1 : (normalize_arabic_text_for_comparison_content s).filter
          (fun c => !(inAnnotationRanges c)) =
          normalize_arabic_text_for_comparison_content s :=
        List.filter_eq_self.2 fun a ha => by simp [(hchar a ha).1]
      have e2 : (normalize_arabic_text_for_comparison_content s).filter
          (fun c => !(isDigitChar c)) =
          normalize_arabic_text_for_comparison_content s :=
        List.filter_eq_self.2 fun a ha => by simp [(hchar a ha).2.1]
      have e3 : (normalize_arabic_text_for_comparison_content s).map
          (fun c => if c = 'ٰ' then 'ا' else c) =
          normalize_arabic_text_for_comparison_content s :=
        map_id_on fun a ha => if_neg ((hchar a ha).2.2)
      rw [e1, e2, e3, content_normalize_eq_joinSp hs,
        splitWs_joinSp (goodWords_splitWs _)]

/-! ## Letter/harakat extractor invariants (C9 infrastructure) -/

theorem harakatAux_idx_lt {s : List Char} :
    ∀ k, ∀ p ∈ harakatAux s k, p.1 < k + (s.filter isL).length := by
  induction s with
  | nil => intro k p hp; exact absurd hp (List.not_mem_nil p)
  | cons c cs ih =>
    intro k p hp
    by_cases hL : isL c
    · rw [harakatAux, if_pos hL] at hp
      have h := ih (k + 1) p hp
      rw [List.filter_cons, if_pos (by simp [hL]), List.length_cons]
      omega
    · rw [harakatAux, if_neg hL] at hp
      rw [List.filter_cons, if_neg (by simp [hL])]
      by_cases hm : (c = FATHA ∨ c = DAMMA ∨ c = KASRA) ∧ k ≠ 0
      · rw [if_pos hm] at hp
        rcases List.mem_cons.1 hp with rfl | hp2
        · have := hm.2; simp only []; omega
        · exact ih k p hp2
      · rw [if_neg hm] at hp
        exact ih k p hp

theorem nfdStr_append (a b : List Char) :
    nfdStr (a ++ b) = nfdStr a ++ nfdStr b := by
  simp [nfdStr]

theorem lettersOf_length (w : List Char) (ph : Bool) :
    (lettersOf w ph).length = ((nfdStr w).filter isL).length := by
  cases ph <;> simp [lettersOf, nfkcStr]

theorem harakatAux_append_of_no_letter {pre rest : List Char}
    (h : ∀ c ∈ pre, isL c = false) :
    harakatAux (pre ++ rest) 0 = harakatAux rest 0 := by
  induction pre with
  | nil => rfl
  | cons c cs ih =>
    have hc : isL c = false := h c (List.mem_cons_self _ _)
    rw [List.cons_append, harakatAux, if_neg (by simp [hc]),
      if_neg (by simp)]
    exact ih fun d hd => h d (List.mem_cons.2 (Or.inr hd))

/-- **C9.**  For every input string, the letter profile of
`get_letters_and_harakat` satisfies: whenever the letters string is
non-empty, every recorded harakat `letter_index` lies in
`[0, len(letters))`; and any relevant diacritic occurring before the first
letter is dropped (a letter-free prefix contributes no harakat records). -/
theorem claim9_letter_profile_invariant (w : List Char) (ph : Bool) :
    (lettersOf w ph ≠ [] →
      ∀ p ∈ harakatOf w, p.1 < (lettersOf w ph).length) ∧
    (∀ pre rest : List Char, (∀ c ∈ nfdStr pre, isL c = false) →
      harakatOf (pre ++ rest) = harakatOf rest) := by
  constructor
  · intro _ p hp
    have h := harakatAux_idx_lt 0 p hp
    rw [lettersOf_length]
    omega
  · intro pre rest h
    rw [harakatOf, harakatOf, nfdStr_append]
    exact harakatAux_append_of_no_letter h

/-- Witness for C9 at a concrete input: the word `"بَ"` (ba + fatha) records
the pair `(0, fatha)` with `0 < len(letters)`, and a leading bare fatha
contributes nothing to `"ب"`. -/
theorem claim9_letter_profile_invariant_witness :
    (0, FATHA).1 < (lettersOf "بَ".data true).length ∧
      harakatOf ("َ".data ++ "ب".data) = harakatOf "ب".data := by
  have h := claim9_letter_profile_invariant "بَ".data true
  exact ⟨h.1 (by decide) (0, FATHA) (by decide),
    h.2 "َ".data "ب".data (by decide)⟩

/-! ## Levenshtein distance of a string with itself

For two equal strings the DP row after `i` outer iterations is
`j ↦ |i - j|`: the row invariant below establishes this, so the final
entry is `|n - n| = 0`. -/

theorem levGo_natDist (c1 : Char) (i : Nat) :
    ∀ (t : List Char) (j : Nat),
      (∀ k, j + k = i → t[k]? = some c1) →
      levGo c1 t ((List.range' j (t.length + 1)).map (natDist i))
          (natDist (i + 1) j) =
        (List.range' (j + 1) t.length).map (natDist (i + 1)) := by
  intro t
  induction t with
  | nil => intro j _; rfl
  | cons c2 cs ih =>
    intro j hc
    rw [List.length_cons, List.range'_succ, List.map_cons, levGo]
    have hhead : ((List.range' (j + 1) (cs.length + 1)).map (natDist i)).headD 0 =
        natDist i (j + 1) := by
      rw [List.range'_succ, List.map_cons]; rfl
    have hv : min (((List.range' (j + 1) (cs.length + 1)).map (natDist i)).headD 0 + 1)
        (min (natDist (i + 1) j + 1)
          (natDist i j + (if c1 = c2 then 0 else 1))) =
        natDist (i + 1) (j + 1) := by
      rw [hhead]
      by_cases hij : j = i
      · subst hij
        have := hc 0 (by omega)
        simp only [List.getElem?_cons_zero, Option.some_inj] at this
        subst this
        simp [natDist, Nat.min_def]
      · rcases eq_or_ne c1 c2 with h | h <;>
          simp only [h, if_pos, if_neg, ne_eq, not_false_iff] <;>
          · simp only [natDist, Nat.min_def]
            split_ifs <;> omega
    rw [hv]
    have ihh := ih (j + 1) fun k hk => by
      have := hc (k + 1) (by omega)
      simpa using this
    rw [ihh, List.range'_succ, List.map_cons]

theorem levRows_natDist (s : List Char) :
    ∀ (t : List Char) (i : Nat), i ≤ s.length → s.drop i = t →
      levRows s t i ((List.range' 0 (s.length + 1)).map (natDist i)) =
        (List.range' 0 (s.length + 1)).map (natDist s.length) := by
  intro t
  induction t with
  | nil =>
    intro i hle hdrop
    have : i = s.length := by
      have := congrArg List.length hdrop
      simp only [List.length_drop, List.length_nil] at this
      omega
    subst this
    rfl
  | cons c1 cs ih =>
    intro i hle hdrop
    have hget : s[i]? = some c1 := by
      have := congrArg List.head? hdrop
      rwa [List.head?_drop] at this
    have hlen : i < s.length := by
      have := congrArg List.length hdrop
      simp only [List.length_drop, List.length_cons] at this
      omega
    have hdrop' : s.drop (i + 1) = cs := by
      have := congrArg List.tail hdrop
      simpa [List.tail_drop] using this
    rw [levRows]
    have hrow := levGo_natDist c1 i s 0 (fun k hk => by
      have : k = i := by omega
      subst this; exact hget)
    have h0 : natDist (i + 1) 0 = i + 1 := by simp [natDist]
    have hfull : (i + 1) :: levGo c1 s ((List.range' 0 (s.length + 1)).map (natDist i)) (i + 1) =
        (List.range' 0 (s.length + 1)).map (natDist (i + 1)) := by
      conv_lhs => rw [← h0]
      rw [hrow, List.range'_succ, List.map_cons]
    rw [hfull]
    exact ih (i + 1) hlen hdrop'

theorem levenshtein_self (s : List Char) : levenshtein_distance s s = 0 := by
  rw [levenshtein_distance, if_neg (lt_irrefl _)]
  rcases hs : s with _ | ⟨a, l⟩
  · rfl
  · rw [levPost, if_neg (by simp)]
    have hinit : (List.range' 0 ((a :: l).length + 1)).map (natDist 0) =
        List.range ((a :: l).length + 1) := by
      rw [List.range_eq_range']
      exact map_id_on fun j _ => by simp [natDist]
    rw [← hinit, levRows_natDist (a :: l) (a :: l) 0 (by omega) (by simp)]
    rw [List.range'_concat, List.map_append]
    simp [natDist]

/-! ## Similarity scorer -/

theorem letter_sim_self {L : List Char} (h : L ≠ []) : letter_sim L L = 1 := by
  have hlen : 0 < L.length := List.length_pos.2 h
  simp only [letter_sim, levenshtein_self, max_self, if_pos hlen]
  rw [Nat.cast_zero, sub_zero, div_self (by exact_mod_cast Nat.pos_iff_ne_zero.1 hlen)]

theorem tashkeel_sim_of_subset {aH uH : List (Nat × Char)}
    (h : ∀ p ∈ aH, p ∈ uH) : tashkeel_sim aH uH = 1 := by
  by_cases he : aH = []
  · simp [tashkeel_sim, he]
  · have hlen : 0 < aH.length := List.length_pos.2 he
    simp only [tashkeel_sim, if_neg he]
    rw [List.countP_eq_length.2 fun a ha => by simp [h a ha]]
    rw [div_self (by exact_mod_cast Nat.pos_iff_ne_zero.1 hlen)]

theorem letter_sim_pos_def {aL uL : List Char} (h : 0 < max aL.length uL.length) :
    letter_sim aL uL =
      (((max aL.length uL.length : Nat) : ℚ) -
          ((levenshtein_distance aL uL : Nat) : ℚ)) /
        ((max aL.length uL.length : Nat) : ℚ) := by
  simp only [letter_sim, if_pos h]

theorem letter_sim_concrete (m d : Nat) {aL uL : List Char}
    (hm : max aL.length uL.length = m) (hd : levenshtein_distance aL uL = d)
    (hpos : 0 < m) :
    letter_sim aL uL = ((m : ℚ) - (d : ℚ)) / (m : ℚ) := by
  subst hm; subst hd
  exact letter_sim_pos_def hpos

theorem check_word_match_self (w : List Char) :
    check_word_match w w 0.85 0.7 = true := by
  by_cases hL : lettersOf w true = []
  · simp [check_word_match, get_letters_and_harakat, hL]
  · simp only [check_word_match, get_letters_and_harakat]
    rw [if_neg fun hh => hL hh.1, if_neg fun hh => hL (hh.elim id id),
      letter_sim_self hL, if_neg (by norm_num), decide_eq_true_eq,
      tashkeel_sim_of_subset fun p hp => hp]
    norm_num

/-- **C4.**  In the similarity scorer, letter similarity equals
`(max_len - levenshtein_distance) / max_len` over the two phonetic letter
strings; whenever it is below the letter threshold the verdict is "no
match" regardless of any diacritic data (the tashkeel threshold is never
consulted); and concretely a one-letter substitution in the four-letter
words `"ابجد"` / `"ابجز"` yields similarity exactly `3/4`, which fails for
every tashkeel threshold with `letter_threshold = 0.8` and matches with
`letter_threshold = 0.7` (the reference word carrying no diacritics). -/
theorem claim4_letter_similarity_short_circuit :
    (∀ aL uL : List Char, aL ≠ [] → uL ≠ [] →
      letter_sim aL uL =
        (((max aL.length uL.length : Nat) : ℚ) -
            ((levenshtein_distance aL uL : Nat) : ℚ)) /
          ((max aL.length uL.length : Nat) : ℚ)) ∧
    (∀ a u : List Char, ∀ lt : ℚ,
      lettersOf a true ≠ [] → lettersOf u true ≠ [] →
      letter_sim (lettersOf a true) (lettersOf u true) < lt →
      ∀ tt : ℚ, check_word_match a u lt tt = false) ∧
    letter_sim (lettersOf "ابجد".data true) (lettersOf "ابجز".data true) = 3 / 4 ∧
    (∀ tt : ℚ, check_word_match "ابجد".data "ابجز".data 0.8 tt = false) ∧
    check_word_match "ابجد".data "ابجز".data 0.7 0.7 = true := by
  have hsim34 : letter_sim (lettersOf "ابجد".data true)
      (lettersOf "ابجز".data true) = 3 / 4 := by
    rw [letter_sim_concrete 4 1 (by decide) (by decide) (by decide)]
    norm_num
  refine ⟨?_, ?_, hsim34, ?_, ?_⟩
  · intro aL uL ha _
    exact letter_sim_pos_def (lt_max_of_lt_left (List.length_pos.2 ha))
  · intro a u lt ha hu hsim tt
    simp only [check_word_match, get_letters_and_harakat]
    rw [if_neg fun hh => ha hh.1, if_neg fun hh => hh.elim ha hu, if_pos hsim]
  · intro tt
    simp only [check_word_match, get_letters_and_harakat]
    rw [if_neg (by decide), if_neg (by decide),
      if_pos (by rw [hsim34]; norm_num)]
  · simp only [check_word_match, get_letters_and_harakat]
    rw [if_neg (by decide), if_neg (by decide),
      if_neg (by rw [hsim34]; norm_num), decide_eq_true_eq]
    have hh : harakatOf "ابجد".data = [] := by decide
    rw [hh]
    simp only [tashkeel_sim, if_pos rfl]
    norm_num

/-- Witness for C4: applying the short-circuit clause at the concrete
boundary pair with letter threshold `0.8` and an arbitrary tashkeel
threshold (`0.5`). -/
theorem claim4_letter_similarity_short_circuit_witness :
    check_word_match "ابجد".data "ابجز".data 0.8 0.5 = false :=
  claim4_letter_similarity_short_circuit.2.1 "ابجد".data "ابجز".data 0.8
    (by decide) (by decide)
    (by rw [letter_sim_concrete 4 1 (by decide) (by decide) (by decide)]; norm_num)
    0.5

/-- **C5.**  Diacritic similarity in the scorer is `1.0` whenever the
reference profile records no diacritics, and otherwise equals the fraction
of reference `(letter_index, mark)` pairs present in the candidate's
diacritic set; extra candidate diacritics never lower it, so a candidate
containing every reference diacritic (plus possibly more) still matches
once the letter threshold has passed (for any tashkeel threshold ≤ 1). -/
theorem claim5_diacritic_similarity_asymmetric :
    (∀ u : List (Nat × Char), tashkeel_sim [] u = 1) ∧
    (∀ aH uH : List (Nat × Char), aH ≠ [] →
      tashkeel_sim aH uH =
        ((aH.countP fun h => decide (h ∈ uH)) : ℚ) / (aH.length : ℚ)) ∧
    (∀ a u : List Char, ∀ lt tt : ℚ,
      lettersOf a true ≠ [] → lettersOf u true ≠ [] →
      ¬ letter_sim (lettersOf a true) (lettersOf u true) < lt →
      (∀ p ∈ harakatOf a, p ∈ harakatOf u) → tt ≤ 1 →
      check_word_match a u lt tt = true) := by
  refine ⟨fun u => by simp [tashkeel_sim], fun aH uH h => by
    simp only [tashkeel_sim, if_neg h], ?_⟩
  intro a u lt tt ha hu hsim hsub htt
  simp only [check_word_match, get_letters_and_harakat]
  rw [if_neg fun hh => ha hh.1, if_neg fun hh => hh.elim ha hu, if_neg hsim,
    decide_eq_true_eq, tashkeel_sim_of_subset hsub]
  exact htt

/-- Witness for C5: reference `"بَب"` (one fatha) against candidate
`"بَبُ"` (same fatha plus an extra damma) matches at the default
thresholds. -/
theorem claim5_diacritic_similarity_asymmetric_witness :
    check_word_match "بَب".data "بَبُ".data 0.85 0.7 = true :=
  claim5_diacritic_similarity_asymmetric.2.2 "بَب".data "بَبُ".data 0.85 0.7
    (by decide) (by decide)
    (by rw [letter_sim_concrete 2 0 (by decide) (by decide) (by decide)]; norm_num)
    (by decide) (by norm_num)

/-! ## Aligner: forward search, absorption and the main loop -/

theorem findMatchFromAux_cons_true {aw t : List Char} {ts : List (List Char)}
    {i : Nat} (h : check_word_match aw t 0.85 0.7 = true) :
    findMatchFromAux aw (t :: ts) i = some i := by
  rw [findMatchFromAux, if_pos h]

theorem findMatchFromAux_cons_false {aw t : List Char} {ts : List (List Char)}
    {i : Nat} (h : check_word_match aw t 0.85 0.7 = false) :
    findMatchFromAux aw (t :: ts) i = findMatchFromAux aw ts (i + 1) := by
  rw [findMatchFromAux, if_neg (by simp [h])]

theorem findMatchFromAux_some {aw : List Char} :
    ∀ (ts : List (List Char)) (i p : Nat),
      findMatchFromAux aw ts i = some p →
      i ≤ p ∧ p - i < ts.length ∧
        ∃ t, ts[p - i]? = some t ∧ check_word_match aw t 0.85 0.7 = true := by
  intro ts
  induction ts with
  | nil => intro i p h; exact absurd h (by simp [findMatchFromAux])
  | cons t ts ih =>
    intro i p h
    rw [findMatchFromAux] at h
    by_cases hc : check_word_match aw t 0.85 0.7
    · rw [if_pos hc] at h
      injection h with h
      subst h
      exact ⟨le_refl _, by simp, t, by simp, hc⟩
    · rw [if_neg hc] at h
      rcases ih (i + 1) p h with ⟨h1, h2, u, hu, hcu⟩
      refine ⟨by omega, by simp only [List.length_cons]; omega, u, ?_, hcu⟩
      have hpi : p - i = (p - (i + 1)) + 1 := by omega
      rw [hpi]
      simpa using hu

theorem findMatchFromAux_le {aw : List Char} :
    ∀ (ts : List (List Char)) (i k : Nat) (t : List Char),
      ts[k]? = some t → check_word_match aw t 0.85 0.7 = true →
      ∃ p, findMatchFromAux aw ts i = some p ∧ p ≤ i + k := by
  intro ts
  induction ts with
  | nil => intro i k t ht _; simp at ht
  | cons u ts ih =>
    intro i k t ht hc
    by_cases hcu : check_word_match aw u 0.85 0.7
    · exact ⟨i, findMatchFromAux_cons_true hcu, by omega⟩
    · rw [findMatchFromAux_cons_false (by simpa using hcu)]
      rcases k with _ | k
      · simp only [List.getElem?_cons_zero, Option.some_inj] at ht
        subst ht
        exact absurd hc hcu
      · simp only [List.getElem?_cons_succ] at ht
        rcases ih (i + 1) k t ht hc with ⟨p, hp, hle⟩
        exact ⟨p, hp, by omega⟩

theorem findMatchFrom_some {aw : List Char} {toks : List (List Char)}
    {c p : Nat} (h : findMatchFrom aw toks c = some p) :
    c ≤ p ∧ p < toks.length ∧
      ∃ t, toks[p]? = some t ∧ check_word_match aw t 0.85 0.7 = true := by
  rcases findMatchFromAux_some _ c p h with ⟨h1, h2, t, ht, hc⟩
  rw [List.length_drop] at h2
  refine ⟨h1, by omega, t, ?_, hc⟩
  rw [List.getElem?_drop] at ht
  have : c + (p - c) = p := by omega
  rwa [this] at ht

theorem findMatchFrom_le {aw : List Char} {toks : List (List Char)}
    {c k : Nat} {t : List Char} (hk : c ≤ k) (ht : toks[k]? = some t)
    (hc : check_word_match aw t 0.85 0.7 = true) :
    ∃ p, findMatchFrom aw toks c = some p ∧ c ≤ p ∧ p ≤ k := by
  have ht' : (toks.drop c)[k - c]? = some t := by
    rw [List.getElem?_drop]
    have : c + (k - c) = k := by omega
    rwa [this]
  rcases findMatchFromAux_le _ c (k - c) t ht' hc with ⟨p, hp, hle⟩
  have hge := (findMatchFromAux_some _ c p hp).1
  exact ⟨p, hp, hge, by omega⟩

theorem absorbAux_bounds (L : List Char) :
    ∀ (ts : List (List Char)) (i : Nat),
      i ≤ absorbAux L ts i ∧ absorbAux L ts i ≤ i + ts.length := by
  intro ts
  induction ts with
  | nil => intro i; simp [absorbAux]
  | cons t ts ih =>
    intro i
    rw [absorbAux]
    by_cases h : lettersOf t true = L
    · rw [if_pos h]
      have h2 := ih (i + 1)
      refine ⟨by omega, ?_⟩
      simp only [List.length_cons]
      omega
    · rw [if_neg h]
      simp only [List.length_cons]
      omega

theorem absorbFrom_ge (L : List Char) (toks : List (List Char)) (i : Nat) :
    i ≤ absorbFrom L toks i := (absorbAux_bounds L _ i).1

theorem absorbAux_spec (L : List Char) :
    ∀ (ts : List (List Char)) (i : Nat),
      (∀ k, i ≤ k → k < absorbAux L ts i →
        ∃ t, ts[k - i]? = some t ∧ lettersOf t true = L) ∧
      (absorbAux L ts i = i + ts.length ∨
        ∃ t, ts[absorbAux L ts i - i]? = some t ∧ lettersOf t true ≠ L) := by
  intro ts
  induction ts with
  | nil =>
    intro i
    refine ⟨fun k hk1 hk2 => absurd (lt_of_le_of_lt hk1 hk2) (by simp [absorbAux]), ?_⟩
    left; simp [absorbAux]
  | cons t ts ih =>
    intro i
    by_cases h : lettersOf t true = L
    · have habs : absorbAux L (t :: ts) i = absorbAux L ts (i + 1) := by
        rw [absorbAux, if_pos h]
      rcases ih (i + 1) with ⟨ih1, ih2⟩
      constructor
      · intro k hk1 hk2
        rw [habs] at hk2
        rcases Nat.eq_or_lt_of_le hk1 with rfl | hlt
        · exact ⟨t, by simp, h⟩
        · rcases ih1 k hlt hk2 with ⟨u, hu, hLu⟩
          refine ⟨u, ?_, hLu⟩
          have hki : k - i = (k - (i + 1)) + 1 := by omega
          rw [hki]
          simpa using hu
      · rw [habs]
        rcases ih2 with h2 | ⟨u, hu, hLu⟩
        · left; rw [h2]; simp only [List.length_cons]; omega
        · right
          refine ⟨u, ?_, hLu⟩
          have hge := (absorbAux_bounds L ts (i + 1)).1
          have hki : absorbAux L ts (i + 1) - i = (absorbAux L ts (i + 1) - (i + 1)) + 1 := by
            omega
          rw [hki]
          simpa using hu
    · have habs : absorbAux L (t :: ts) i = i := by rw [absorbAux, if_neg h]
      refine ⟨fun k hk1 hk2 => absurd (lt_of_le_of_lt hk1 hk2) (by rw [habs]; omega), ?_⟩
      right
      rw [habs]
      exact ⟨t, by simp, h⟩

theorem alignStep_of_none {aw : List Char} {toks : List (List Char)} {c : Nat}
    (h : findMatchFrom aw toks c = none) : alignStep aw toks c = (none, c) := by
  rw [alignStep, h]

theorem alignStep_cursor_le (aw : List Char) (toks : List (List Char)) (c : Nat) :
    c ≤ (alignStep aw toks c).2 := by
  rw [alignStep]
  rcases hf : findMatchFrom aw toks c with _ | p
  · exact le_refl c
  · have h1 := (findMatchFrom_some hf).1
    have h2 := absorbFrom_ge (lettersOf (toks.getD p []) true) toks (p + 1)
    simp only []
    omega

theorem alignAll_trace_bounds (toks : List (List Char)) :
    ∀ (infos : List AyahInfo) (c : Nat),
      (∀ p ∈ (alignAll infos toks c).2.1, c ≤ p) ∧
      List.Pairwise (· < ·) (alignAll infos toks c).2.1 ∧
      c ≤ (alignAll infos toks c).2.2 := by
  intro infos
  induction infos with
  | nil => intro c; simp [alignAll]
  | cons info rest ih =>
    intro c
    rcases hf : findMatchFrom info.normalized_form_for_content_comparison toks c
      with _ | p
    · simp only [alignAll, hf]
      exact ih c
    · have hcp := (findMatchFrom_some hf).1
      have habs := absorbFrom_ge (lettersOf (toks.getD p []) true) toks (p + 1)
      rcases ih (absorbFrom (lettersOf (toks.getD p []) true) toks (p + 1))
        with ⟨ih1, ih2, ih3⟩
      simp only [alignAll, hf]
      refine ⟨?_, ?_, by omega⟩
      · intro q hq
        rcases List.mem_cons.1 hq with rfl | hq2
        · exact hcp
        · have := ih1 q hq2
          omega
      · refine List.pairwise_cons.2 ⟨fun q hq => ?_, ih2⟩
        have := ih1 q hq
        omega

theorem alignAll_incorrect_sublist (toks : List (List Char)) :
    ∀ (infos : List AyahInfo) (c : Nat),
      List.Sublist (alignAll infos toks c).1 (infos.map
        fun i => (i.original_form, i.original_position_in_processed_ayah)) := by
  intro infos
  induction infos with
  | nil => intro c; simp [alignAll]
  | cons info rest ih =>
    intro c
    rcases hf : findMatchFrom info.normalized_form_for_content_comparison toks c
      with _ | p
    · simp only [alignAll, hf, List.map_cons]
      exact List.Sublist.cons₂ _ (ih c)
    · simp only [alignAll, hf, List.map_cons]
      exact List.Sublist.cons _ (ih _)

theorem alignAll_nil_toks :
    ∀ (infos : List AyahInfo) (c : Nat),
      alignAll infos [] c =
        (infos.map fun i => (i.original_form, i.original_position_in_processed_ayah),
          [], c) := by
  intro infos
  induction infos with
  | nil => intro c; simp [alignAll]
  | cons info rest ih =>
    intro c
    have hf : findMatchFrom info.normalized_form_for_content_comparison [] c = none := by
      rw [findMatchFrom, List.drop_nil]
      rfl
    simp only [alignAll, hf, ih c, List.map_cons]

theorem buildInfos_mem :
    ∀ (ts : List (List Char)) (i : Nat), ∀ info ∈ buildInfos ts i,
      i ≤ info.original_position_in_processed_ayah ∧
      ts[info.original_position_in_processed_ayah - i]? = some info.original_form := by
  intro ts
  induction ts with
  | nil => intro i info h; exact absurd h (List.not_mem_nil info)
  | cons t ts ih =>
    intro i info h
    rw [buildInfos] at h
    by_cases hn : normalize_arabic_text_for_comparison_content t = []
    · rw [if_pos hn] at h
      rcases ih (i + 1) info h with ⟨h1, h2⟩
      refine ⟨by omega, ?_⟩
      have hki : info.original_position_in_processed_ayah - i =
          (info.original_position_in_processed_ayah - (i + 1)) + 1 := by omega
      rw [hki]
      simpa using h2
    · rw [if_neg hn] at h
      rcases List.mem_cons.1 h with rfl | h2
      · exact ⟨le_refl _, by simp⟩
      · rcases ih (i + 1) info h2 with ⟨h1, h2⟩
        refine ⟨by omega, ?_⟩
        have hki : info.original_position_in_processed_ayah - i =
            (info.original_position_in_processed_ayah - (i + 1)) + 1 := by omega
        rw [hki]
        simpa using h2

theorem alignAll_cons_some {info : AyahInfo} {rest : List AyahInfo}
    {toks : List (List Char)} {c p : Nat}
    (hf : findMatchFrom info.normalized_form_for_content_comparison toks c = some p) :
    alignAll (info :: rest) toks c =
      ((alignAll rest toks (absorbFrom (lettersOf (toks.getD p []) true) toks (p + 1))).1,
        p :: (alignAll rest toks
          (absorbFrom (lettersOf (toks.getD p []) true) toks (p + 1))).2.1,
        (alignAll rest toks
          (absorbFrom (lettersOf (toks.getD p []) true) toks (p + 1))).2.2) := by
  simp only [alignAll, hf]

theorem alignAll_cons_none {info : AyahInfo} {rest : List AyahInfo}
    {toks : List (List Char)} {c : Nat}
    (hf : findMatchFrom info.normalized_form_for_content_comparison toks c = none) :
    alignAll (info :: rest) toks c =
      ((info.original_form, info.original_position_in_processed_ayah) ::
          (alignAll rest toks c).1,
        (alignAll rest toks c).2.1, (alignAll rest toks c).2.2) := by
  simp only [alignAll, hf]

theorem buildInfos_pos_pairwise :
    ∀ (ts : List (List Char)) (i : Nat),
      List.Pairwise (· < ·) ((buildInfos ts i).map
        fun info => info.original_position_in_processed_ayah) := by
  intro ts
  induction ts with
  | nil => intro i; simp [buildInfos]
  | cons t ts ih =>
    intro i
    rw [buildInfos]
    by_cases hn : normalize_arabic_text_for_comparison_content t = []
    · rw [if_pos hn]; exact ih (i + 1)
    · rw [if_neg hn, List.map_cons]
      refine List.pairwise_cons.2 ⟨?_, ih (i + 1)⟩
      intro q hq
      rcases List.mem_map.1 hq with ⟨info, hinfo, rfl⟩
      have := (buildInfos_mem ts (i + 1) info hinfo).1
      simp only []
      omega

/-- **C3.**  Throughout any alignment run the transcript cursor is
monotonically non-decreasing: a reference word that finds no match leaves
the cursor exactly where it was, every step's new cursor is at least the old
one, and the instrumented trace of matched transcript positions (each at or
after the cursor current when it was produced) is strictly increasing. -/
theorem claim3_monotone_cursor :
    (∀ (aw : List Char) (toks : List (List Char)) (c : Nat),
      findMatchFrom aw toks c = none → alignStep aw toks c = (none, c)) ∧
    (∀ (aw : List Char) (toks : List (List Char)) (c : Nat),
      c ≤ (alignStep aw toks c).2) ∧
    (∀ (infos : List AyahInfo) (toks : List (List Char)) (c : Nat),
      (∀ p ∈ (alignAll infos toks c).2.1, c ≤ p) ∧
      List.Pairwise (· < ·) (alignAll infos toks c).2.1) :=
  ⟨fun _ _ _ h => alignStep_of_none h, alignStep_cursor_le,
    fun infos toks c => ⟨(alignAll_trace_bounds toks infos c).1,
      (alignAll_trace_bounds toks infos c).2.1⟩⟩

/-- Witness for C3: the no-match clause applied at empty inputs, plus the
trace clause there. -/
theorem claim3_monotone_cursor_witness :
    alignStep [] [] 0 = (none, 0) ∧
      List.Pairwise (· < ·) (alignAll [] [] 0).2.1 :=
  ⟨claim3_monotone_cursor.1 [] [] 0 rfl,
    (claim3_monotone_cursor.2.2 [] [] 0).2⟩

/-- **C10.**  In every grading result the reported positions are strictly
increasing (so no position is reported twice), and each reported position
indexes, in the post-prefix-stripping raw reference token sequence, exactly
the raw token whose surface form is reported. -/
theorem claim10_positions_strictly_increasing (ayah trans : List Char) :
    List.Pairwise (· < ·) ((grade_recitation ayah trans).map Prod.snd) ∧
    ∀ e ∈ grade_recitation ayah trans,
      (splitWs (processed_ayah_final ayah))[e.2]? = some e.1 := by
  have hsub := alignAll_incorrect_sublist
    (transcribed_tokens_normalized (processed_transcription_final ayah trans))
    (ayah_words_info ayah) 0
  constructor
  · have hmap := hsub.map Prod.snd
    have hpw : List.Pairwise (· < ·)
        (((ayah_words_info ayah).map
          (fun i => (i.original_form, i.original_position_in_processed_ayah))).map
            Prod.snd) := by
      rw [List.map_map]
      simpa [Function.comp] using
        buildInfos_pos_pairwise (splitWs (processed_ayah_final ayah)) 0
    rw [grade_recitation]
    exact hpw.sublist hmap
  · intro e he
    rw [grade_recitation] at he
    have hmem := hsub.subset he
    rcases List.mem_map.1 hmem with ⟨info, hinfo, rfl⟩
    have h2 := (buildInfos_mem (splitWs (processed_ayah_final ayah)) 0 info
      (by simpa [ayah_words_info] using hinfo)).2
    simpa using h2

/-- Witness for C10: the single reference word of `"ب"` graded against an
empty transcript is reported at position `0`, which indexes its raw token. -/
theorem claim10_positions_strictly_increasing_witness :
    (splitWs (processed_ayah_final "ب".data))[(("ب".data, 0) : List Char × Nat).2]? =
      some ("ب".data, 0).1 :=
  (claim10_positions_strictly_increasing "ب".data []).2 ("ب".data, 0) (by decide)

/-! ## Whitespace-only references (C7 infrastructure) -/

theorem mem_nfdStr {s : List Char} {c : Char} (h : c ∈ nfdStr s) :
    ∃ e ∈ s, c ∈ nfdChar e := by
  rw [nfdStr] at h
  rcases List.mem_flatten.1 h with ⟨l, hl, hc⟩
  rcases List.mem_map.1 hl with ⟨e, he, rfl⟩
  exact ⟨e, he, hc⟩

theorem nfdChar_of_space {c : Char} (h : isSpace c = true) : nfdChar c = [c] := by
  have h1 : c ≠ 'أ' := fun he => by rw [he] at h; exact absurd h (by decide)
  have h2 : c ≠ 'إ' := fun he => by rw [he] at h; exact absurd h (by decide)
  have h3 : c ≠ 'آ' := fun he => by rw [he] at h; exact absurd h (by decide)
  have h4 : c ≠ 'ؤ' := fun he => by rw [he] at h; exact absurd h (by decide)
  have h5 : c ≠ 'ئ' := fun he => by rw [he] at h; exact absurd h (by decide)
  rw [nfdChar, if_neg h1, if_neg h2, if_neg h3, if_neg h4, if_neg h5]

theorem replDetect_of_space {c : Char} (h : isSpace c = true) : replDetect c = c := by
  have h1 : ¬(c = 'أ' ∨ c = 'إ' ∨ c = 'آ' ∨ c = 'ٱ') := by
    rintro (rfl | rfl | rfl | rfl) <;> exact absurd h (by decide)
  have h2 : c ≠ 'ة' := fun he => by rw [he] at h; exact absurd h (by decide)
  have h3 : c ≠ 'ى' := fun he => by rw [he] at h; exact absurd h (by decide)
  rw [replDetect, if_neg h1, if_neg h2, if_neg h3]

theorem isMn_of_space {c : Char} (h : isSpace c = true) : isMn c = false := by
  simp only [isSpace, Bool.or_eq_true, decide_eq_true_eq, List.mem_cons,
    List.not_mem_nil, or_false] at h
  simp only [isMn, decide_eq_false_iff_not]
  omega

theorem detectNorm_all_space {ref : List Char} (h : ∀ c ∈ ref, isSpace c = true) :
    normalize_text_for_detection ref = [] := by
  by_cases he : ref = []
  · subst he; rfl
  · rw [normalize_text_for_detection, if_neg he, collapseWs,
      splitWs_eq_nil_of_all_space]
    · rfl
    · intro c hc
      rcases List.mem_map.1 hc with ⟨d, hd, rfl⟩
      have hdn := (List.mem_filter.1 hd).1
      rcases mem_nfdStr hdn with ⟨e, he2, hde⟩
      have hse : isSpace e = true := h e he2
      rw [nfdChar_of_space hse, List.mem_singleton] at hde
      subst hde
      rw [replDetect_of_space hse]
      exact hse

/-- **C7.**  The text-comparison core degrades instead of failing: a
whitespace-only (or empty) reference text grades to an empty
`incorrect_words` list against every transcript, and an empty transcript
makes every post-strip reference token incorrect, one entry per token in
order. -/
theorem claim7_error_handling :
    (∀ ref : List Char, (∀ c ∈ ref, isSpace c = true) →
      ∀ trans : List Char, grade_recitation ref trans = []) ∧
    (∀ ref : List Char, grade_recitation ref [] =
      (ayah_words_info ref).map
        fun i => (i.original_form, i.original_position_in_processed_ayah)) := by
  constructor
  · intro ref h trans
    have hsplit : splitWs ref = [] := splitWs_eq_nil_of_all_space h
    have hheader : processed_ayah_after_header ref = ref := by
      simp [processed_ayah_after_header, hsplit]
    have hdet : normalize_text_for_detection ref = [] := detectNorm_all_space h
    have hfat : is_al_fatiha_basmala_case ref = false := by
      rw [is_al_fatiha_basmala_case, hheader, hdet]
      decide
    have hstrip : strip_prefix_from_raw_text ref
        BASMALA_TOKENS_NORMALIZED_FOR_DETECTION
        BASMALA_TOKENS_NORMALIZED_FOR_DETECTION.length = ref := by
      by_cases he : ref = []
      · rw [strip_prefix_from_raw_text, if_pos (Or.inl he)]
      · rw [strip_prefix_from_raw_text,
          if_neg (by simp [he, BASMALA_TOKENS_NORMALIZED_FOR_DETECTION]; decide),
          if_pos (by rw [hsplit]; decide)]
    have hfinal : processed_ayah_final ref = ref := by
      rw [processed_ayah_final, hheader]
      simp only [hfat, Bool.false_eq_true, if_false]
      exact hstrip
    have hinfo : ayah_words_info ref = [] := by
      rw [ayah_words_info, hfinal, hsplit]
      rfl
    rw [grade_recitation, hinfo]
    simp [alignAll]
  · intro ref
    have htr : processed_transcription_final ref [] = [] := by
      rw [processed_transcription_final]
      by_cases hfat : is_al_fatiha_basmala_case ref
      · rw [if_pos hfat]
      · rw [if_neg hfat, strip_prefix_from_raw_text, if_pos (Or.inl rfl)]
    rw [grade_recitation, htr]
    have : transcribed_tokens_normalized [] = [] := rfl
    rw [this, alignAll_nil_toks]

/-- Witness for C7: the whitespace-only reference `" "` grades to an empty
result against the transcript `"الله"`. -/
theorem claim7_error_handling_witness :
    grade_recitation " ".data "الله".data = [] :=
  claim7_error_handling.1 " ".data (by decide) "الله".data

/-- **C6.**  After a reference word matches the transcript token at
position `p`, the cursor becomes `p + 1` advanced through duplicate
absorption: it skips exactly the maximal run of immediately following
transcript tokens whose phonetic letters equal the matched token's letters,
stopping at the first differing token (or the end).  Concretely, the single
reference word `"الله"` against transcript `"الله الله اكبر"` leaves the
cursor at `2` (both identical repeats consumed), and with reference
`"الله اكبر"` the remaining token `"اكبر"` still matches the next reference
word, so nothing is reported incorrect. -/
theorem claim6_duplicate_absorption :
    (∀ (aw : List Char) (toks : List (List Char)) (c p : Nat),
      findMatchFrom aw toks c = some p →
      (alignStep aw toks c).2 =
        absorbFrom (lettersOf (toks.getD p []) true) toks (p + 1)) ∧
    (∀ (L : List Char) (toks : List (List Char)) (i : Nat),
      i ≤ absorbFrom L toks i ∧
      (∀ k, i ≤ k → k < absorbFrom L toks i →
        ∃ t, toks[k]? = some t ∧ lettersOf t true = L) ∧
      (toks.length ≤ absorbFrom L toks i ∨
        ∃ t, toks[absorbFrom L toks i]? = some t ∧ lettersOf t true ≠ L)) ∧
    (alignAll (ayah_words_info "الله".data)
      (transcribed_tokens_normalized
        (processed_transcription_final "الله".data "الله الله اكبر".data)) 0).2.2 = 2 ∧
    grade_recitation "الله اكبر".data "الله الله اكبر".data = [] := by
  have toks2 : transcribed_tokens_normalized
      (processed_transcription_final "الله".data "الله الله اكبر".data) =
      ["الله".data, "الله".data, "اكبر".data] := by decide
  have toks2' : transcribed_tokens_normalized
      (processed_transcription_final "الله اكبر".data "الله الله اكبر".data) =
      ["الله".data, "الله".data, "اكبر".data] := by decide
  have hf1 : findMatchFrom "الله".data
      ["الله".data, "الله".data, "اكبر".data] 0 = some 0 := by
    rw [findMatchFrom, List.drop_zero]
    exact findMatchFromAux_cons_true (check_word_match_self _)
  refine ⟨?_, ?_, ?_, ?_⟩
  · intro aw toks c p hf
    rw [alignStep, hf]
  · intro L toks i
    have hb := absorbAux_bounds L (toks.drop i) i
    have hs := absorbAux_spec L (toks.drop i) i
    refine ⟨hb.1, ?_, ?_⟩
    · intro k hk1 hk2
      rcases hs.1 k hk1 hk2 with ⟨t, ht, hL⟩
      refine ⟨t, ?_, hL⟩
      rw [List.getElem?_drop] at ht
      have hik : i + (k - i) = k := by omega
      rwa [hik] at ht
    · rcases hs.2 with h | ⟨t, ht, hL⟩
      · left
        rw [absorbFrom, h, List.length_drop]
        omega
      · right
        refine ⟨t, ?_, hL⟩
        rw [List.getElem?_drop] at ht
        have hik : i + (absorbAux L (List.drop i toks) i - i) =
            absorbAux L (List.drop i toks) i := by
          have := hb.1
          omega
        rw [hik] at ht
        exact ht
  · have h1 : ayah_words_info "الله".data = [⟨"الله".data, "الله".data, 0⟩] := by
      decide
    rw [h1, toks2, alignAll_cons_some hf1]
    simp only [alignAll]
    decide
  · have h1 : ayah_words_info "الله اكبر".data =
        [⟨"الله".data, "الله".data, 0⟩, ⟨"اكبر".data, "اكبر".data, 1⟩] := by decide
    rw [grade_recitation, h1, toks2', alignAll_cons_some hf1]
    have habs : absorbFrom
        (lettersOf ((["الله".data, "الله".data, "اكبر".data] :
          List (List Char)).getD 0 []) true)
        ["الله".data, "الله".data, "اكبر".data] (0 + 1) = 2 := by decide
    rw [habs]
    have hf2 : findMatchFrom "اكبر".data
        ["الله".data, "الله".data, "اكبر".data] 2 = some 2 := by
      rw [findMatchFrom]
      show findMatchFromAux "اكبر".data ["اكبر".data] 2 = some 2
      exact findMatchFromAux_cons_true (check_word_match_self _)
    rw [alignAll_cons_some hf2]
    simp only [alignAll]

/-- Witness for C6: the absorption characterization applied to the run of
the concrete transcript above — the cursor clause at match position `0`. -/
theorem claim6_duplicate_absorption_witness :
    1 ≤ absorbFrom (lettersOf "الله".data true)
        ["الله".data, "الله".data, "اكبر".data] 1 ∧
    (alignStep "الله".data ["الله".data, "الله".data, "اكبر".data] 0).2 =
      absorbFrom (lettersOf ((["الله".data, "الله".data, "اكبر".data] :
        List (List Char)).getD 0 []) true)
        ["الله".data, "الله".data, "اكبر".data] (0 + 1) := by
  constructor
  · exact (claim6_duplicate_absorption.2.1
      (lettersOf "الله".data true) ["الله".data, "الله".data, "اكبر".data] 1).1
  · exact claim6_duplicate_absorption.1 "الله".data
      ["الله".data, "الله".data, "اكبر".data] 0 0
      (by rw [findMatchFrom, List.drop_zero]
          exact findMatchFromAux_cons_true (check_word_match_self _))

/-- **C1 (counterexample).**  The claim asserts that a reference whose
content normalization equals the content-normalized Basmala grades to an
empty `incorrect_words` list for *every* transcript, short-circuiting the
aligner.  The Basmala reference itself satisfies the trigger (trivially:
its content normalization equals the content-normalized invocation phrase),
yet against an empty transcript the code runs the aligner and reports all
four reference words incorrect. -/
theorem claim1_counterexample_no_short_circuit :
    normalize_arabic_text_for_comparison_content BASMALA_EXACT_TEXT =
      normalize_arabic_text_for_comparison_content BASMALA_EXACT_TEXT ∧
    grade_recitation BASMALA_EXACT_TEXT [] =
      [("بسم".data, 0), ("الله".data, 1), ("الرحمن".data, 2), ("الرحيم".data, 3)] ∧
    grade_recitation BASMALA_EXACT_TEXT [] ≠ [] := by
  have hval : grade_recitation BASMALA_EXACT_TEXT [] =
      [("بسم".data, 0), ("الله".data, 1), ("الرحمن".data, 2), ("الرحيم".data, 3)] := by
    have htr : processed_transcription_final BASMALA_EXACT_TEXT [] = [] := by
      rw [processed_transcription_final,
        if_pos (by rw [is_al_fatiha_basmala_case]; decide)]
    rw [grade_recitation, htr]
    have h0 : transcribed_tokens_normalized [] = [] := rfl
    rw [h0, alignAll_nil_toks]
    decide
  exact ⟨rfl, hval, by rw [hval]; decide⟩

/-- **C1 (amended).**  What the code actually does: the special case is
keyed on *detection* normalization of the header-stripped reference
(`is_al_fatiha_basmala_case`), and its effect is only to skip Basmala
stripping on both the reference and the transcript — the aligner still runs
on the full token sequences (so the result is not unconditionally empty). -/
theorem claim1_amended_fatiha_skips_stripping_only (ayah trans : List Char)
    (h : normalize_text_for_detection (processed_ayah_after_header ayah) =
      BASMALA_NORMALIZED_FOR_DETECTION) :
    grade_recitation ayah trans =
      (alignAll (buildInfos (splitWs (processed_ayah_after_header ayah)) 0)
        (transcribed_tokens_normalized trans) 0).1 := by
  have hfat : is_al_fatiha_basmala_case ayah = true := by
    rw [is_al_fatiha_basmala_case, h]
    simp
  rw [grade_recitation, ayah_words_info, processed_ayah_final,
    processed_transcription_final]
  simp only [hfat, if_true]

/-- Witness for C1's amended statement: instantiated at the Basmala
reference and the transcript `"الله"`. -/
theorem claim1_amended_fatiha_skips_stripping_only_witness :
    grade_recitation BASMALA_EXACT_TEXT "الله".data =
      (alignAll (buildInfos (splitWs (processed_ayah_after_header
          BASMALA_EXACT_TEXT)) 0)
        (transcribed_tokens_normalized "الله".data) 0).1 :=
  claim1_amended_fatiha_skips_stripping_only BASMALA_EXACT_TEXT "الله".data
    (by decide)

/-- **C2 (counterexample).**  The identity property fails for references
with an immediately repeated word: grading `"الله الله"` against itself
reports the second occurrence incorrect, because the first reference word's
duplicate absorption consumes both transcript copies. -/
theorem claim2_counterexample_identity_fails_on_repeats :
    ("الله الله".data : List Char) ≠ [] ∧
    grade_recitation "الله الله".data "الله الله".data = [("الله".data, 1)] := by
  refine ⟨by decide, ?_⟩
  have h1 : ayah_words_info "الله الله".data =
      [⟨"الله".data, "الله".data, 0⟩, ⟨"الله".data, "الله".data, 1⟩] := by decide
  have h2 : transcribed_tokens_normalized
      (processed_transcription_final "الله الله".data "الله الله".data) =
      ["الله".data, "الله".data] := by decide
  have hf1 : findMatchFrom "الله".data ["الله".data, "الله".data] 0 = some 0 := by
    rw [findMatchFrom, List.drop_zero]
    exact findMatchFromAux_cons_true (check_word_match_self _)
  rw [grade_recitation, h1, h2, alignAll_cons_some hf1]
  have habs : absorbFrom (lettersOf ((["الله".data, "الله".data] :
      List (List Char)).getD 0 []) true) ["الله".data, "الله".data] (0 + 1) = 2 := by
    decide
  rw [habs]
  have hf2 : findMatchFrom "الله".data ["الله".data, "الله".data] 2 = none := by
    rw [findMatchFrom]
    rfl
  rw [alignAll_cons_none hf2]
  simp only [alignAll]

/-! ## Identity grading (C2 infrastructure)

When the reference and the transcript are the same string, the reference
token block is a suffix of the transcript token sequence (prefix stripping
removes at least as much from the reference side), every reference word
matches itself, and — provided no two consecutive transcript tokens carry
identical phonetic letters — duplicate absorption never advances the
cursor past the next needed token. -/

theorem buildInfos_map_norm :
    ∀ (ts : List (List Char)) (i : Nat),
      (buildInfos ts i).map (fun info => info.normalized_form_for_content_comparison) =
        ts.filterMap fun w =>
          let n := normalize_arabic_text_for_comparison_content w
          if n = [] then none else some n := by
  intro ts
  induction ts with
  | nil => intro i; rfl
  | cons t ts ih =>
    intro i
    rw [buildInfos, List.filterMap_cons]
    by_cases hn : normalize_arabic_text_for_comparison_content t = []
    · simp only [if_pos hn]
      exact ih (i + 1)
    · simp only [if_neg hn, List.map_cons]
      rw [ih (i + 1)]

theorem alignAll_suffix_self (toks : List (List Char))
    (hAD : List.Chain' (fun a b => lettersOf a true ≠ lettersOf b true) toks) :
    ∀ (infos : List AyahInfo) (pre : List (List Char)) (c : Nat),
      toks = pre ++ infos.map (fun i => i.normalized_form_for_content_comparison) →
      c ≤ pre.length →
      (alignAll infos toks c).1 = [] := by
  intro infos
  induction infos with
  | nil => intro pre c _ _; simp [alignAll]
  | cons info rest ih =>
    intro pre c htoks hc
    have hk : toks[pre.length]? = some info.normalized_form_for_content_comparison := by
      rw [htoks, List.getElem?_append_right (le_refl pre.length)]
      simp
    rcases findMatchFrom_le hc hk (check_word_match_self _) with ⟨p, hp, hcp, hpk⟩
    have hplen : p < toks.length := (findMatchFrom_some hp).2.1
    rw [alignAll_cons_some hp]
    have hc2 : absorbFrom (lettersOf (toks.getD p []) true) toks (p + 1) ≤ p + 1 := by
      by_cases hend : p + 1 < toks.length
      · have hdropc : toks.drop (p + 1) = toks[p + 1] :: toks.drop (p + 2) :=
          List.drop_eq_getElem_cons hend
        rw [absorbFrom, hdropc, absorbAux, if_neg ?hne]
        case hne =>
          have hadj := List.chain'_iff_get.1 hAD p (by omega)
          have hgd : toks.getD p [] = toks[p] := List.getD_eq_getElem toks [] hplen
          rw [hgd]
          intro hcontra
          exact hadj (by
            rw [List.get_eq_getElem, List.get_eq_getElem]
            exact hcontra.symm ▸ rfl)
      · rw [absorbFrom, List.drop_eq_nil_of_le (by omega), absorbAux]
    refine ih (pre ++ [info.normalized_form_for_content_comparison])
      (absorbFrom (lettersOf (toks.getD p []) true) toks (p + 1)) ?_ ?_
    · rw [htoks, List.map_cons]
      simp
    · rw [List.length_append, List.length_singleton]
      omega

theorem alignAll_drops (R : List Char) (dt dr : Nat) (hle : dt ≤ dr)
    (hAD : List.Chain' (fun a b => lettersOf a true ≠ lettersOf b true)
      (transcribed_tokens_normalized R))
    (href : splitWs (processed_ayah_final R) = (splitWs R).drop dr)
    (htr : splitWs (processed_transcription_final R R) = (splitWs R).drop dt) :
    grade_recitation R R = [] := by
  have htoksdef : transcribed_tokens_normalized (processed_transcription_final R R) =
      ((splitWs R).drop dt).filterMap fun w =>
        let n := normalize_arabic_text_for_comparison_content w
        if n = [] then none else some n := by
    rw [transcribed_tokens_normalized, htr]
  have hsegsplit : (splitWs R).drop dt =
      ((splitWs R).drop dt).take (dr - dt) ++ (splitWs R).drop dr := by
    conv_lhs => rw [← List.take_append_drop (dr - dt) ((splitWs R).drop dt)]
    rw [List.drop_drop]
    congr 2
    omega
  have hinfos : (ayah_words_info R).map
      (fun i => i.normalized_form_for_content_comparison) =
      ((splitWs R).drop dr).filterMap fun w =>
        let n := normalize_arabic_text_for_comparison_content w
        if n = [] then none else some n := by
    rw [ayah_words_info, href, buildInfos_map_norm]
  have hADt : List.Chain' (fun a b => lettersOf a true ≠ lettersOf b true)
      (transcribed_tokens_normalized (processed_transcription_final R R)) := by
    rw [htoksdef]
    have hsplitfull : transcribed_tokens_normalized R =
        ((splitWs R).take dt).filterMap (fun w =>
          let n := normalize_arabic_text_for_comparison_content w
          if n = [] then none else some n) ++
        ((splitWs R).drop dt).filterMap (fun w =>
          let n := normalize_arabic_text_for_comparison_content w
          if n = [] then none else some n) := by
      rw [transcribed_tokens_normalized, ← List.filterMap_append,
        List.take_append_drop]
    rw [hsplitfull] at hAD
    exact (List.chain'_append.1 hAD).2.1
  rw [grade_recitation]
  refine alignAll_suffix_self _ hADt (ayah_words_info R)
    ((((splitWs R).drop dt).take (dr - dt)).filterMap fun w =>
      let n := normalize_arabic_text_for_comparison_content w
      if n = [] then none else some n) 0 ?_ (Nat.zero_le _)
  rw [htoksdef, hinfos, ← List.filterMap_append, ← hsegsplit]

theorem header_strip_spec (ayah : List Char) :
    processed_ayah_after_header ayah = ayah ∨
    ((∃ t0 rest, splitWs ayah = t0 :: rest ∧
        normalize_text_for_detection t0 = SURAH_WORD_NORMALIZED_FOR_DETECTION) ∧
      ∃ d, splitWs (processed_ayah_after_header ayah) = (splitWs ayah).drop d) := by
  by_cases h0 : splitWs ayah = []
  · left
    simp [processed_ayah_after_header, h0]
  by_cases h1 : normalize_text_for_detection ((splitWs ayah).headD []) =
      SURAH_WORD_NORMALIZED_FOR_DETECTION
  · right
    constructor
    · rcases hsp : splitWs ayah with _ | ⟨t0, rest⟩
      · exact absurd hsp h0
      · rw [hsp] at h1
        exact ⟨t0, rest, rfl, h1⟩
    · have hunf : processed_ayah_after_header ayah =
          (if (if 1 < (splitWs ayah).length then
              (if 2 < (splitWs ayah).length ∧
                  normalize_text_for_detection ((splitWs ayah).getD 1 []) =
                    normalize_text_for_detection "ال".data then 3 else 2)
            else 1) ≤ (splitWs ayah).length then
            stripWs (joinSp ((splitWs ayah).drop
              (if 1 < (splitWs ayah).length then
                (if 2 < (splitWs ayah).length ∧
                    normalize_text_for_detection ((splitWs ayah).getD 1 []) =
                      normalize_text_for_detection "ال".data then 3 else 2)
              else 1)))
          else []) := by
        rw [processed_ayah_after_header]
        simp only [if_neg h0, if_pos h1]
      by_cases h2 : (if 1 < (splitWs ayah).length then
          (if 2 < (splitWs ayah).length ∧
              normalize_text_for_detection ((splitWs ayah).getD 1 []) =
                normalize_text_for_detection "ال".data then 3 else 2)
        else 1) ≤ (splitWs ayah).length
      · refine ⟨(if 1 < (splitWs ayah).length then
            (if 2 < (splitWs ayah).length ∧
                normalize_text_for_detection ((splitWs ayah).getD 1 []) =
                  normalize_text_for_detection "ال".data then 3 else 2)
          else 1), ?_⟩
        rw [hunf, if_pos h2,
          splitWs_stripWs_joinSp (goodWords_drop (goodWords_splitWs ayah) _)]
      · refine ⟨(splitWs ayah).length, ?_⟩
        rw [hunf, if_neg h2, splitWs_nil, List.drop_length]
  · left
    simp only [processed_ayah_after_header]
    rw [if_neg h0, if_neg h1]

theorem strip_prefix_spec (raw : List Char) :
    strip_prefix_from_raw_text raw BASMALA_TOKENS_NORMALIZED_FOR_DETECTION
        BASMALA_TOKENS_NORMALIZED_FOR_DETECTION.length = raw ∨
    (((splitWs raw).take BASMALA_TOKENS_NORMALIZED_FOR_DETECTION.length).map
        normalize_text_for_detection = BASMALA_TOKENS_NORMALIZED_FOR_DETECTION ∧
      splitWs (strip_prefix_from_raw_text raw
          BASMALA_TOKENS_NORMALIZED_FOR_DETECTION
          BASMALA_TOKENS_NORMALIZED_FOR_DETECTION.length) =
        (splitWs raw).drop BASMALA_TOKENS_NORMALIZED_FOR_DETECTION.length) := by
  by_cases hz : raw = [] ∨ BASMALA_TOKENS_NORMALIZED_FOR_DETECTION = []
  · left
    rw [strip_prefix_from_raw_text, if_pos hz]
  by_cases hlen : (splitWs raw).length <
      BASMALA_TOKENS_NORMALIZED_FOR_DETECTION.length
  · left
    rw [strip_prefix_from_raw_text, if_neg hz, if_pos hlen]
  by_cases hm : ((splitWs raw).take
      BASMALA_TOKENS_NORMALIZED_FOR_DETECTION.length).map
      normalize_text_for_detection = BASMALA_TOKENS_NORMALIZED_FOR_DETECTION
  · right
    refine ⟨hm, ?_⟩
    rw [strip_prefix_from_raw_text, if_neg hz, if_neg hlen, if_pos hm,
      splitWs_stripWs_joinSp (goodWords_drop (goodWords_splitWs raw) _)]
  · left
    rw [strip_prefix_from_raw_text, if_neg hz, if_neg hlen, if_neg hm]

/-- **C2 (amended).**  For every non-empty reference text `R` in which no
two consecutive content-normalized words have identical phonetic letter
strings, grading `R` against itself returns an empty `incorrect_words`
list.  (The unamended claim fails exactly when a word is immediately
repeated: duplicate absorption then consumes the repeat, see the
counterexample.) -/
theorem claim2_amended_identity_without_adjacent_repeats (R : List Char)
    (_hne : R ≠ [])
    (hAD : List.Chain' (fun a b => lettersOf a true ≠ lettersOf b true)
      (transcribed_tokens_normalized R)) :
    grade_recitation R R = [] := by
  by_cases hfat : is_al_fatiha_basmala_case R = true
  · have href : processed_ayah_final R = processed_ayah_after_header R := by
      rw [processed_ayah_final]
      simp only [hfat, if_true]
    have htr : processed_transcription_final R R = R := by
      rw [processed_transcription_final]
      simp only [hfat, if_true]
    rcases header_strip_spec R with hh | ⟨-, d, hd⟩
    · exact alignAll_drops R 0 0 (le_refl 0) hAD
        (by rw [href, hh, List.drop_zero]) (by rw [htr, List.drop_zero])
    · exact alignAll_drops R 0 d (Nat.zero_le d) hAD
        (by rw [href]; exact hd) (by rw [htr, List.drop_zero])
  · have hfat' : is_al_fatiha_basmala_case R = false :=
      Bool.not_eq_true _ ▸ (by simpa using hfat)
    have href : processed_ayah_final R = strip_prefix_from_raw_text
        (processed_ayah_after_header R) BASMALA_TOKENS_NORMALIZED_FOR_DETECTION
        BASMALA_TOKENS_NORMALIZED_FOR_DETECTION.length := by
      rw [processed_ayah_final]
      simp only [hfat', Bool.false_eq_true, if_false]
    have htr : processed_transcription_final R R = strip_prefix_from_raw_text R
        BASMALA_TOKENS_NORMALIZED_FOR_DETECTION
        BASMALA_TOKENS_NORMALIZED_FOR_DETECTION.length := by
      rw [processed_transcription_final]
      simp only [hfat', Bool.false_eq_true, if_false]
    rcases header_strip_spec R with hh | ⟨⟨t0, rest, hsp, hsur⟩, d, hd⟩
    · -- no header: both sides strip the same text, so the two final texts agree
      have hsame : processed_ayah_final R = processed_transcription_final R R := by
        rw [href, htr, hh]
      rcases strip_prefix_spec R with hs | ⟨-, hs⟩
      · exact alignAll_drops R 0 0 (le_refl 0) hAD
          (by rw [hsame, htr, hs, List.drop_zero]) (by rw [htr, hs, List.drop_zero])
      · exact alignAll_drops R BASMALA_TOKENS_NORMALIZED_FOR_DETECTION.length
          BASMALA_TOKENS_NORMALIZED_FOR_DETECTION.length (le_refl _) hAD
          (by rw [hsame, htr]; exact hs) (by rw [htr]; exact hs)
    · -- header case: the transcript side's Basmala strip cannot fire, since the
      -- first raw token normalizes to the Surah word, not to "بسم"
      have hnofire : strip_prefix_from_raw_text R
          BASMALA_TOKENS_NORMALIZED_FOR_DETECTION
          BASMALA_TOKENS_NORMALIZED_FOR_DETECTION.length = R := by
        rcases strip_prefix_spec R with hs | ⟨hmatch, -⟩
        · exact hs
        · exfalso
          have hB : BASMALA_TOKENS_NORMALIZED_FOR_DETECTION =
              ["بسم".data, "الله".data, "الرحمن".data, "الرحيم".data] := by decide
          rw [hsp, hB] at hmatch
          have hhead : normalize_text_for_detection t0 = "بسم".data := by
            have := congrArg List.head? hmatch
            rcases rest with _ | ⟨r1, rs⟩ <;>
              simpa [List.take] using this
          rw [hsur] at hhead
          have : SURAH_WORD_NORMALIZED_FOR_DETECTION ≠ "بسم".data := by decide
          exact this hhead
      have htr' : processed_transcription_final R R = R := by rw [htr, hnofire]
      rcases strip_prefix_spec (processed_ayah_after_header R) with hs | ⟨-, hs⟩
      · exact alignAll_drops R 0 d (Nat.zero_le d) hAD
          (by rw [href, hs]; exact hd) (by rw [htr', List.drop_zero])
      · refine alignAll_drops R 0
          (BASMALA_TOKENS_NORMALIZED_FOR_DETECTION.length + d) (Nat.zero_le _) hAD
          ?_ (by rw [htr', List.drop_zero])
        rw [href, hs, hd, List.drop_drop, Nat.add_comm]

/-- Witness for C2's amended statement: `"بسم الله"` (two distinct words)
graded against itself is fully correct. -/
theorem claim2_amended_identity_without_adjacent_repeats_witness :
    grade_recitation "بسم الله".data "بسم الله".data = [] := by
  apply claim2_amended_identity_without_adjacent_repeats "بسم الله".data (by decide)
  have h : transcribed_tokens_normalized "بسم الله".data =
      ["بسم".data, "الله".data] := by decide
  rw [h]
  refine List.chain'_cons.2 ⟨?_, List.chain'_singleton _⟩
  decide

end QuranGrading
